import Mathlib

/-!
Shallow embedding of `rename_to_ascii.py`.

Python strings are `List Char`, `None`-able values are `Option`, and raised
exceptions are `Except Err`.  The external library calls the script makes
(`unicodedata.normalize`, `unidecode`, `str.lower`, `os.path`, `os.walk`)
are modelled explicitly below; everything else is translated directly from
the source.
-/

/-- The character set of Python's `string.printable`: ASCII 0x20–0x7e
together with the whitespace controls tab, newline, vertical tab, form feed
and carriage return (codepoints 9–13). -/
def pythonPrintable (c : Char) : Bool :=
  (32 ≤ c.toNat && c.toNat ≤ 126) || (9 ≤ c.toNat && c.toNat ≤ 13)

/-- Python `str.lower`, modelled characterwise: ASCII capitals map to their
lowercase forms, every other character is unchanged. -/
def lowerChar (c : Char) : Char :=
  if 65 ≤ c.toNat && c.toNat ≤ 90 then Char.ofNat (c.toNat + 32) else c

/-- Python `str.lower` on a whole string. -/
def lower (s : List Char) : List Char := s.map lowerChar

/-- Modelled from the spec: the external `unicodedata.normalize("NFKD", s)`
call of `ascii_equivalent` (§4.1 "apply Unicode canonical decomposition
(compatibility form)").  Characterwise; ASCII characters have no
decomposition, a sample non-ASCII character is tabulated ('é' decomposes to
'e' followed by combining acute U+0301), and other characters stand for
those with no decomposition. -/
def nfkdChar (c : Char) : List Char :=
  if c.toNat < 128 then [c]
  else if c = 'é' then ['e', '́']
  else [c]

/-- Modelled from the spec: the external `unidecode` call of
`ascii_equivalent` (§4.1 "map each decomposed character to its nearest ASCII
transliteration ... non-Latin scripts fold to a romanized approximation or
are dropped").  Identity on ASCII; combining marks and unmapped non-ASCII
characters are dropped; a sample table entry transliterates 'é' directly. -/
def unidecodeChar (c : Char) : List Char :=
  if c.toNat < 128 then [c]
  else if c = 'é' then ['e']
  else []

/-- `ascii_equivalent` from `rename_to_ascii.py` (lines 7–19): NFKD
normalisation, transliteration to ASCII, then keep only the characters of
`string.printable`. -/
def ascii_equivalent (s : List Char) : List Char :=
  ((s.flatMap nfkdChar).flatMap unidecodeChar).filter pythonPrintable

/-- The `forbidden_characters` table (lines 22–36), keyed by platform
string. -/
def forbidden_characters (t : List Char) : Option (List Char) :=
  if t = "windows".toList then some [':', '\"', '/', '\\', '<', '>', '|', '?', '*']
  else if t = "macos".toList then some [':', '/']
  else if t = "unix".toList then some ['/']
  else none

/-- The nine replacement arguments of `compatibility_substitution`.  `none`
is Python `None` ("do not replace"); `some []` is the empty string. -/
structure SubstArgs where
  colon : Option (List Char)
  double_quote : Option (List Char)
  fwd_slash : Option (List Char)
  backslash : Option (List Char)
  lt : Option (List Char)
  gt : Option (List Char)
  pipe : Option (List Char)
  question_mark : Option (List Char)
  asterisk : Option (List Char)
deriving DecidableEq

/-- The default replacement arguments of `compatibility_substitution`
(lines 43–51). -/
def defaultArgs : SubstArgs :=
  ⟨some [';'], some ['\''], some ['-'], some ['-'],
   some ['(', 'l', 't', ')'], some ['(', 'g', 't', ')'],
   some ['-'], some ['(', 'q', ')'], some ['^']⟩

/-- The `complete_codemap` dict (lines 85–95), in insertion order. -/
def complete_codemap (a : SubstArgs) : List (Char × Option (List Char)) :=
  [(':', a.colon), ('\"', a.double_quote), ('/', a.fwd_slash), ('\\', a.backslash),
   ('<', a.lt), ('>', a.gt), ('|', a.pipe), ('?', a.question_mark), ('*', a.asterisk)]

/-- The `codemap` sub-dict (line 103): the pairs of `complete_codemap`
restricted to the platform's forbidden characters, in that key order. -/
def mkCodemap (ks : List Char) (a : SubstArgs) : List (Char × Option (List Char)) :=
  ks.map (fun k => (k, Option.join (List.lookup k (complete_codemap a))))

/-- The exceptions the script raises, by site. -/
inductive Err where
  | invalidType (t : List Char)
  | conflicting (c : Char) (r : List Char)
  | nonAscii (c : Char) (r : List Char)
  | pathNotFound (p : List Char)
deriving DecidableEq

/-- Python `str.isascii`. -/
def isascii (r : List Char) : Bool := r.all (fun c => c.toNat < 128)

/-- The validation loop of `compatibility_substitution` (lines 106–114):
for each pair in order, a truthy replacement equal to one of the codemap
keys raises first, then a truthy non-ASCII replacement when `ascii_only`. -/
def validate (cm : List (Char × Option (List Char))) (ks : List Char)
    (ascii_only : Bool) : Except Err Unit :=
  match cm with
  | [] => Except.ok ()
  | (c, arg) :: rest =>
    match arg with
    | none => validate rest ks ascii_only
    | some r =>
      if !r.isEmpty && ks.any (fun k => r == [k]) then Except.error (Err.conflicting c r)
      else if !r.isEmpty && ascii_only && !isascii r then Except.error (Err.nonAscii c r)
      else validate rest ks ascii_only

/-- Python `s.replace(c, r)` for a single-character pattern. -/
def replaceAll (s : List Char) (c : Char) (r : List Char) : List Char :=
  s.flatMap (fun x => if x = c then r else [x])

/-- The replacement loop (lines 117–119): each truthy replacement is applied
in table order; `None` and the empty string are both skipped by
`if replacement:`. -/
def applySubstitutions (s : List Char) (cm : List (Char × Option (List Char))) : List Char :=
  cm.foldl (fun acc p =>
    match p.2 with
    | some r => if r.isEmpty then acc else replaceAll acc p.1 r
    | none => acc) s

/-- `compatibility_substitution` from `rename_to_ascii.py` (lines 39–123). -/
def compatibility_substitution (s : List Char) (type : List Char)
    (ascii_only : Bool) (a : SubstArgs) : Except Err (List Char) :=
  match forbidden_characters (lower type) with
  | none => Except.error (Err.invalidType type)
  | some relevant_keys =>
    match validate (mkCodemap relevant_keys a) relevant_keys ascii_only with
    | Except.error e => Except.error e
    | Except.ok _ =>
      Except.ok ((applySubstitutions s (mkCodemap relevant_keys a)).filter pythonPrintable)

/-- Python truthiness of an optional string: `None` and `""` are falsy. -/
def truthyStr (o : Option (List Char)) : Bool :=
  match o with
  | none => false
  | some s => !s.isEmpty

/-- POSIX `os.path.join(root, s)` for two components: an absolute `s`
discards `root`; otherwise a separator is inserted unless `root` is empty or
already ends in one. -/
def path_join (root : List Char) (s : List Char) : List Char :=
  if s.head? = some '/' then s
  else if root.isEmpty || root.getLast? = some '/' then root ++ s
  else root ++ '/' :: s

/-- `propose_changes` from `rename_to_ascii.py` (lines 131–165):
transliterate, optionally substitute for a platform (always with
`ascii_only=True` and the default replacements), return `none` when the
outcome equals the input, else the (joined) pair. -/
def propose_changes (s : List Char) (root : Option (List Char))
    (substitute_type : Option (List Char)) : Except Err (Option (List Char × List Char)) :=
  match (if truthyStr substitute_type then
          compatibility_substitution (ascii_equivalent s) (substitute_type.getD []) true defaultArgs
        else Except.ok (ascii_equivalent s)) with
  | Except.error e => Except.error e
  | Except.ok ascii_s =>
    if ascii_s = s then Except.ok none
    else if truthyStr root then
      Except.ok (some (path_join (root.getD []) s, path_join (root.getD []) ascii_s))
    else Except.ok (some (s, ascii_s))

/-- `filter_nonetypes` (lines 126–128): drop the `None` entries (the tuples
in the lists it is applied to are always truthy). -/
def filter_nonetypes (x : List (Option (List Char × List Char))) :
    List (List Char × List Char) :=
  x.filterMap id

/-- Python `path.rstrip("/\\")` (line 219). -/
def rstrip_seps (p : List Char) : List Char :=
  (p.reverse.dropWhile (fun c => c == '/' || c == '\\')).reverse

/-- POSIX `os.path.split`: split at the last '/', stripping trailing
slashes from the head unless the head is all slashes. -/
def path_split (p : List Char) : List Char × List Char :=
  let tail := (p.reverse.takeWhile (fun c => !(c == '/'))).reverse
  let head := p.take (p.length - tail.length)
  if !head.isEmpty && !(head.all (fun c => c == '/')) then
    ((head.reverse.dropWhile (fun c => c == '/')).reverse, tail)
  else (head, tail)

/-- The filesystem as seen through `os.path.exists`, `os.path.isfile` and
`os.walk`; `walk` yields `(root, dirs, files)` triples in traversal order. -/
structure FS where
  path_exists : List Char → Bool
  isfile : List Char → Bool
  walk : List Char → List (List Char × List (List Char) × List (List Char))

/-- `find_problem_filenames` from `rename_to_ascii.py` (lines 190–249).
`os.walk` laziness is modelled by truncating the triple list to its first
element when `recursive` is false (the loop breaks after one iteration). -/
def find_problem_filenames (fs : FS) (path : List Char)
    (substitute_type : Option (List Char)) (include_dirs : Bool) (recursive : Bool) :
    Except Err (List (List Char × List Char) × List (List Char × List Char)) := do
  let path := rstrip_seps path
  if !fs.path_exists path then
    Except.error (Err.pathNotFound path)
  else
    let root := (path_split path).1
    let basename := (path_split path).2
    if fs.isfile path then do
      let p ← propose_changes basename (some root) substitute_type
      pure (filter_nonetypes [p], [])
    else do
      let dirSelf ← (if include_dirs then propose_changes basename (some root) substitute_type
                     else pure none)
      let triples := if recursive then fs.walk path else (fs.walk path).take 1
      let fileProps ← triples.foldlM (fun acc t => do
        let more ← t.2.2.mapM (fun f => propose_changes f (some t.1) substitute_type)
        pure (acc ++ more)) ([] : List (Option (List Char × List Char)))
      let dirProps ← (if include_dirs then
          triples.foldlM (fun acc t => do
            let more ← t.2.1.mapM (fun d => propose_changes d (some t.1) substitute_type)
            pure (acc ++ more)) ([] : List (Option (List Char × List Char)))
        else pure [])
      pure (filter_nonetypes fileProps,
            filter_nonetypes ((if include_dirs then [dirSelf] else []) ++ dirProps))

/-- The substitution `compatibility_substitution` performs for a valid
platform once validation has passed. -/
def defaultSubstitution (s : List Char) (type : List Char) : List Char :=
  match forbidden_characters (lower type) with
  | some ks => (applySubstitutions s (mkCodemap ks defaultArgs)).filter pythonPrintable
  | none => s

/-- The fully transformed name of §4.3: transliteration, then platform
substitution with the default replacements when a platform is given. -/
def finalName (s : List Char) (t : Option (List Char)) : List Char :=
  match t with
  | some ty => defaultSubstitution (ascii_equivalent s) ty
  | none => ascii_equivalent s

/-- The joined path of §4.3: `parent + name` when a truthy parent is given,
else the bare name. -/
def joinedPath (root : Option (List Char)) (s : List Char) : List Char :=
  if truthyStr root then path_join (root.getD []) s else s

/-- A platform string is valid when its lowercasing is a key of
`forbidden_characters`. -/
def validType (t : List Char) : Bool := (forbidden_characters (lower t)).isSome

/-- An optional platform argument is valid when absent or valid. -/
def validOptType (t : Option (List Char)) : Bool :=
  match t with
  | none => true
  | some ty => validType ty

/-- A filesystem with a single regular file `d/x`, used to instantiate the
scanner theorems. -/
def fsOneFile : FS :=
  ⟨fun p => p == "d/x".toList, fun p => p == "d/x".toList, fun _ => []⟩

/-- A filesystem whose root directory exists, used to instantiate the
separator-only-path theorem. -/
def fsRootOnly : FS :=
  ⟨fun p => p == ['/'], fun _ => false, fun _ => []⟩

/-- The default arguments with the colon replacement set to the empty
string. -/
def argsEmptyColon : SubstArgs :=
  ⟨some [], some ['\''], some ['-'], some ['-'],
   some ['(', 'l', 't', ')'], some ['(', 'g', 't', ')'],
   some ['-'], some ['(', 'q', ')'], some ['^']⟩

/-- The default arguments with a non-ASCII colon replacement and a
double-quote replacement equal to the forbidden character ':'. -/
def argsMasked : SubstArgs :=
  ⟨some ['ä'], some [':'], some ['-'], some ['-'],
   some ['(', 'l', 't', ')'], some ['(', 'g', 't', ')'],
   some ['-'], some ['(', 'q', ')'], some ['^']⟩

/-- The default arguments with the double-quote replacement `"a:a"`, a
string that contains a forbidden character without being equal to one. -/
def argsContaining : SubstArgs :=
  ⟨some [';'], some ['a', ':', 'a'], some ['-'], some ['-'],
   some ['(', 'l', 't', ')'], some ['(', 'g', 't', ')'],
   some ['-'], some ['(', 'q', ')'], some ['^']⟩

/-- The default arguments with the colon replacement set to `None`. -/
def argsNoneColon : SubstArgs :=
  ⟨none, some ['\''], some ['-'], some ['-'],
   some ['(', 'l', 't', ')'], some ['(', 'g', 't', ')'],
   some ['-'], some ['(', 'q', ')'], some ['^']⟩

/-- The proposal value computed by `propose_changes` (§4.3): nothing when the
fully transformed name equals the original, else the joined pair. -/
def proposalFor (s : List Char) (root : Option (List Char))
    (t : Option (List Char)) : Option (List Char × List Char) :=
  if finalName s t = s then none
  else some (joinedPath root s, joinedPath root (finalName s t))

/-- The windows codemap built from `argsContaining`. -/
def windowsCodemapContaining : List (Char × Option (List Char)) :=
  mkCodemap [':', '\"', '/', '\\', '<', '>', '|', '?', '*'] argsContaining

/-- The same codemap with its first two entries swapped. -/
def windowsCodemapSwapped : List (Char × Option (List Char)) :=
  ('\"', some ['a', ':', 'a']) :: (':', some [';']) :: windowsCodemapContaining.drop 2

/-- The windows codemap built from the default arguments. -/
def windowsCodemapDefaults : List (Char × Option (List Char)) :=
  mkCodemap [':', '\"', '/', '\\', '<', '>', '|', '?', '*'] defaultArgs

theorem charOfNat_toNat (n : Nat) (h : n < 55296) : (Char.ofNat n).toNat = n := by
  simp [Char.ofNat, Char.ofNatAux, Nat.isValidChar, h, Char.toNat, UInt32.toNat]

theorem lowerChar_idem (c : Char) : lowerChar (lowerChar c) = lowerChar c := by
  unfold lowerChar
  by_cases h : (65 ≤ c.toNat && c.toNat ≤ 90) = true
  · rw [if_pos h, if_neg]
    simp only [Bool.and_eq_true, decide_eq_true_eq] at h
    rw [charOfNat_toNat _ (by omega)]
    simp only [Bool.and_eq_true, decide_eq_true_eq, not_and]
    omega
  · rw [if_neg h, if_neg h]

theorem lower_idem (s : List Char) : lower (lower s) = lower s := by
  unfold lower
  rw [List.map_map]
  induction s with
  | nil => rfl
  | cons x xs ih => simp [Function.comp, lowerChar_idem, ih]

theorem pythonPrintable_lt_128 {c : Char} (h : pythonPrintable c = true) :
    c.toNat < 128 := by
  simp only [pythonPrintable, Bool.or_eq_true, Bool.and_eq_true, decide_eq_true_eq] at h
  omega

theorem nfkdChar_ascii {c : Char} (h : c.toNat < 128) : nfkdChar c = [c] := by
  unfold nfkdChar
  rw [if_pos h]

theorem unidecodeChar_ascii {c : Char} (h : c.toNat < 128) : unidecodeChar c = [c] := by
  unfold unidecodeChar
  rw [if_pos h]

theorem flatMap_eq_self {l : List Char} {f : Char → List Char}
    (h : ∀ c ∈ l, f c = [c]) : l.flatMap f = l := by
  induction l with
  | nil => rfl
  | cons x xs ih =>
    rw [List.flatMap_cons, h x (by simp), ih (fun c hc => h c (by simp [hc]))]
    rfl

theorem mem_ascii_equivalent_printable {c : Char} {s : List Char}
    (h : c ∈ ascii_equivalent s) : pythonPrintable c = true :=
  (List.mem_filter.mp h).2

theorem ascii_equivalent_idem (s : List Char) :
    ascii_equivalent (ascii_equivalent s) = ascii_equivalent s := by
  have hp : ∀ c ∈ ascii_equivalent s, pythonPrintable c = true :=
    fun c hc => mem_ascii_equivalent_printable hc
  have h1 : (ascii_equivalent s).flatMap nfkdChar = ascii_equivalent s :=
    flatMap_eq_self (fun c hc => nfkdChar_ascii (pythonPrintable_lt_128 (hp c hc)))
  have h2 : (ascii_equivalent s).flatMap unidecodeChar = ascii_equivalent s :=
    flatMap_eq_self (fun c hc => unidecodeChar_ascii (pythonPrintable_lt_128 (hp c hc)))
  calc ascii_equivalent (ascii_equivalent s)
      = ((ascii_equivalent s).flatMap unidecodeChar).filter pythonPrintable := by
        rw [ascii_equivalent, h1]
    _ = (ascii_equivalent s).filter pythonPrintable := by rw [h2]
    _ = ascii_equivalent s := List.filter_eq_self.mpr hp

theorem mem_replaceAll {x c : Char} {s r : List Char} :
    x ∈ replaceAll s c r ↔ ∃ y ∈ s, x ∈ (if y = c then r else [y]) :=
  List.mem_flatMap

theorem not_mem_replaceAll_self {s r : List Char} {c : Char} (h : c ∉ r) :
    c ∉ replaceAll s c r := by
  intro hmem
  rcases mem_replaceAll.mp hmem with ⟨y, _, hx⟩
  by_cases hyc : y = c
  · rw [if_pos hyc] at hx
    exact h hx
  · rw [if_neg hyc] at hx
    exact hyc (List.mem_singleton.mp hx).symm

theorem not_mem_replaceAll {s r : List Char} {c f : Char}
    (hs : f ∉ s) (hr : f ∉ r) : f ∉ replaceAll s c r := by
  intro hmem
  rcases mem_replaceAll.mp hmem with ⟨y, hy, hx⟩
  by_cases hyc : y = c
  · rw [if_pos hyc] at hx
    exact hr hx
  · rw [if_neg hyc] at hx
    exact hs ((List.mem_singleton.mp hx) ▸ hy)

theorem replaceAll_of_not_mem {s : List Char} {c : Char} {r : List Char}
    (h : c ∉ s) : replaceAll s c r = s :=
  flatMap_eq_self (fun x hx => by
    rw [if_neg (show ¬x = c from fun he => h (he ▸ hx))])

theorem replaceAll_cons (x : Char) (s : List Char) (c : Char) (r : List Char) :
    replaceAll (x :: s) c r = (if x = c then r else [x]) ++ replaceAll s c r :=
  List.flatMap_cons _ _ _

theorem replaceAll_append (a b : List Char) (c : Char) (r : List Char) :
    replaceAll (a ++ b) c r = replaceAll a c r ++ replaceAll b c r :=
  List.flatMap_append a b _

theorem replaceAll_comm (z : List Char) (c1 c2 : Char) (r1 r2 : List Char)
    (h12 : c1 ≠ c2) (h1 : c1 ∉ r2) (h2 : c2 ∉ r1) :
    replaceAll (replaceAll z c1 r1) c2 r2 = replaceAll (replaceAll z c2 r2) c1 r1 := by
  induction z with
  | nil => rfl
  | cons x z ih =>
    rw [replaceAll_cons x z c1 r1, replaceAll_cons x z c2 r2,
        replaceAll_append, replaceAll_append, ih]
    congr 1
    by_cases hx1 : x = c1
    · subst hx1
      rw [if_pos rfl, if_neg (fun he => h12 he), replaceAll_of_not_mem h2]
      simp [replaceAll]
    · by_cases hx2 : x = c2
      · subst hx2
        rw [if_neg (fun he => h12 he.symm), if_pos rfl, replaceAll_of_not_mem h1]
        simp [replaceAll]
      · rw [if_neg hx1, if_neg hx2]
        simp [replaceAll, hx1, hx2]

theorem applySubstitutions_cons (s : List Char) (p : Char × Option (List Char))
    (cm : List (Char × Option (List Char))) :
    applySubstitutions s (p :: cm)
      = applySubstitutions
          (match p.2 with
           | some r => if r.isEmpty then s else replaceAll s p.1 r
           | none => s) cm := rfl

theorem not_mem_applySubstitutions (f : Char) :
    ∀ (cm : List (Char × Option (List Char))) (s : List Char),
      (∀ p ∈ cm, f ∉ p.2.getD []) →
      ((∃ p ∈ cm, p.1 = f ∧ p.2.getD [] ≠ []) ∨ f ∉ s) →
      f ∉ applySubstitutions s cm := by
  intro cm
  induction cm with
  | nil =>
    intro s _ hf
    rcases hf with ⟨p, hp, _⟩ | h
    · exact absurd hp (List.not_mem_nil p)
    · exact h
  | cons q rest ih =>
    intro s hr hf
    obtain ⟨c, arg⟩ := q
    have hrhead : f ∉ arg.getD [] := hr (c, arg) (List.mem_cons_self _ _)
    have hrrest : ∀ p ∈ rest, f ∉ p.2.getD [] :=
      fun p hp => hr p (List.mem_cons_of_mem _ hp)
    rw [applySubstitutions_cons]
    cases arg with
    | none =>
      apply ih _ hrrest
      rcases hf with ⟨p, hp, hpf, hpne⟩ | hs
      · rcases List.mem_cons.mp hp with he | hp2
        · exact absurd (by rw [he]; rfl) hpne
        · exact Or.inl ⟨p, hp2, hpf, hpne⟩
      · exact Or.inr hs
    | some r =>
      show f ∉ applySubstitutions (if r.isEmpty then s else replaceAll s c r) rest
      by_cases hre : r.isEmpty
      · rw [if_pos hre]
        apply ih _ hrrest
        rcases hf with ⟨p, hp, hpf, hpne⟩ | hs
        · rcases List.mem_cons.mp hp with he | hp2
          · exact absurd (by rw [he, Option.getD_some]; exact List.isEmpty_iff.mp hre) hpne
          · exact Or.inl ⟨p, hp2, hpf, hpne⟩
        · exact Or.inr hs
      · rw [if_neg hre]
        apply ih _ hrrest
        rcases hf with ⟨p, hp, hpf, hpne⟩ | hs
        · rcases List.mem_cons.mp hp with he | hp2
          · refine Or.inr ?_
            have hcf : c = f := by rw [he] at hpf; exact hpf
            rw [hcf]
            exact not_mem_replaceAll_self hrhead
          · exact Or.inl ⟨p, hp2, hpf, hpne⟩
        · exact Or.inr (not_mem_replaceAll hs hrhead)

theorem validate_ok_not_key :
    ∀ (cm : List (Char × Option (List Char))) (ks : List Char) (ao : Bool),
      validate cm ks ao = Except.ok () →
      ∀ p ∈ cm, ∀ k ∈ ks, p.2 ≠ some [k] := by
  intro cm
  induction cm with
  | nil =>
    intro ks ao _ p hp
    exact absurd hp (List.not_mem_nil p)
  | cons q rest ih =>
    intro ks ao hok p hp k hk
    obtain ⟨c, arg⟩ := q
    cases arg with
    | none =>
      rcases List.mem_cons.mp hp with he | hp2
      · rw [he]
        exact fun hcontra => Option.noConfusion hcontra
      · exact ih ks ao hok p hp2 k hk
    | some r =>
      simp only [validate] at hok
      split_ifs at hok with h1 h2
      rcases List.mem_cons.mp hp with he | hp2
      · rw [he]
        intro heq
        injection heq with hr
        apply h1
        subst hr
        simp only [Bool.and_eq_true]
        exact ⟨by simp, List.any_eq_true.mpr ⟨k, hk, by simp⟩⟩
      · exact ih ks ao hok p hp2 k hk

theorem validate_error_shape :
    ∀ (cm : List (Char × Option (List Char))) (ks : List Char) (ao : Bool) (e : Err),
      validate cm ks ao = Except.error e →
      (∃ c r, e = Err.conflicting c r) ∨ (∃ c r, e = Err.nonAscii c r) := by
  intro cm
  induction cm with
  | nil =>
    intro ks ao e h
    exact Except.noConfusion h
  | cons q rest ih =>
    intro ks ao e h
    obtain ⟨c, arg⟩ := q
    cases arg with
    | none => exact ih ks ao e h
    | some r =>
      simp only [validate] at h
      split_ifs at h with h1 h2
      · injection h with he
        exact Or.inl ⟨c, r, he.symm⟩
      · injection h with he
        exact Or.inr ⟨c, r, he.symm⟩
      · exact ih ks ao e h

theorem validate_conflict_error :
    ∀ (cm : List (Char × Option (List Char))) (ks : List Char) (ao : Bool),
      (∃ p ∈ cm, ∃ k ∈ ks, p.2 = some [k]) →
      (∃ e, validate cm ks ao = Except.error e)
      ∧ (ao = false →
          ∃ c r, validate cm ks ao = Except.error (Err.conflicting c r)) := by
  intro cm
  induction cm with
  | nil =>
    intro ks ao hconf
    rcases hconf with ⟨p, hp, _⟩
    exact absurd hp (List.not_mem_nil p)
  | cons q rest ih =>
    intro ks ao hconf
    obtain ⟨c, arg⟩ := q
    cases arg with
    | none =>
      apply ih
      rcases hconf with ⟨p, hp, k, hk, hpk⟩
      rcases List.mem_cons.mp hp with he | hp2
      · rw [he] at hpk
        exact absurd hpk (fun hcontra => Option.noConfusion hcontra)
      · exact ⟨p, hp2, k, hk, hpk⟩
    | some r =>
      simp only [validate]
      split_ifs with h1 h2
      · exact ⟨⟨_, rfl⟩, fun _ => ⟨c, r, rfl⟩⟩
      · refine ⟨⟨_, rfl⟩, fun hao => ?_⟩
        subst hao
        simp at h2
      · apply ih
        rcases hconf with ⟨p, hp, k, hk, hpk⟩
        rcases List.mem_cons.mp hp with he | hp2
        · exfalso
          rw [he] at hpk
          injection hpk with hr
          apply h1
          subst hr
          simp only [Bool.and_eq_true, Bool.not_eq_true']
          exact ⟨by simp, List.any_eq_true.mpr ⟨k, hk, by simp⟩⟩
        · exact ⟨p, hp2, k, hk, hpk⟩

theorem forbidden_cases (t : List Char) (ks : List Char)
    (h : forbidden_characters t = some ks) :
    (t = "windows".toList ∧ ks = [':', '\"', '/', '\\', '<', '>', '|', '?', '*'])
    ∨ (t = "macos".toList ∧ ks = [':', '/'])
    ∨ (t = "unix".toList ∧ ks = ['/']) := by
  unfold forbidden_characters at h
  split_ifs at h with h1 h2 h3
  · exact Or.inl ⟨h1, (Option.some.inj h).symm⟩
  · exact Or.inr (Or.inl ⟨h2, (Option.some.inj h).symm⟩)
  · exact Or.inr (Or.inr ⟨h3, (Option.some.inj h).symm⟩)

theorem compat_defaults_ok (s ty ks : List Char)
    (h : forbidden_characters (lower ty) = some ks) :
    compatibility_substitution s ty true defaultArgs
      = Except.ok (defaultSubstitution s ty) := by
  have hval : validate (mkCodemap ks defaultArgs) ks true = Except.ok () := by
    rcases forbidden_cases _ _ h with ⟨_, hks⟩ | ⟨_, hks⟩ | ⟨_, hks⟩ <;> subst hks <;> rfl
  simp only [compatibility_substitution, defaultSubstitution, h, hval]

theorem defaultSubstitution_no_forbidden (s ty ks : List Char)
    (h : forbidden_characters (lower ty) = some ks) :
    ∀ f ∈ ks, f ∉ defaultSubstitution s ty := by
  intro f hf hmem
  have hmem2 : f ∈ applySubstitutions s (mkCodemap ks defaultArgs) := by
    simp only [defaultSubstitution, h] at hmem
    exact List.mem_of_mem_filter hmem
  rcases forbidden_cases _ _ h with ⟨_, hks⟩ | ⟨_, hks⟩ | ⟨_, hks⟩ <;> subst hks <;>
    fin_cases hf <;>
    exact absurd hmem2
      (not_mem_applySubstitutions _ _ s (by decide) (Or.inl (by decide)))

theorem validType_ne_nil {ty : List Char} (hv : validType ty = true) : ty ≠ [] := by
  intro he
  subst he
  exact absurd hv (by decide)

theorem propose_tail_eq (s : List Char) (root : Option (List Char)) (d : List Char) :
    (if d = s then (Except.ok none : Except Err (Option (List Char × List Char)))
     else if truthyStr root then
       Except.ok (some (path_join (root.getD []) s, path_join (root.getD []) d))
     else Except.ok (some (s, d)))
    = Except.ok (if d = s then none
                 else some (joinedPath root s, joinedPath root d)) := by
  by_cases he : d = s
  · rw [if_pos he, if_pos he]
  · rw [if_neg he, if_neg he]
    by_cases htr : truthyStr root = true
    · rw [if_pos htr]
      simp [joinedPath, htr]
    · rw [if_neg htr]
      simp [joinedPath, htr]

theorem propose_changes_eq (s : List Char) (root : Option (List Char))
    (t : Option (List Char)) (hv : validOptType t = true) :
    propose_changes s root t = Except.ok (proposalFor s root t) := by
  cases t with
  | none => exact propose_tail_eq s root (ascii_equivalent s)
  | some ty =>
    have hvt : validType ty = true := hv
    obtain ⟨ks, hks⟩ := Option.isSome_iff_exists.mp hvt
    have hne : ty ≠ [] := validType_ne_nil hvt
    have ht : truthyStr (some ty) = true := by
      simp [truthyStr, List.isEmpty_iff, hne]
    have hco := compat_defaults_ok (ascii_equivalent s) ty ks hks
    simp only [propose_changes, Option.getD_some]
    rw [if_pos ht, hco]
    exact propose_tail_eq s root (defaultSubstitution (ascii_equivalent s) ty)

theorem mem_mkCodemap {p : Char × Option (List Char)} {ks : List Char} {a : SubstArgs}
    (hp : p ∈ mkCodemap ks a) :
    p.1 ∈ ks ∧ p.2 = Option.join (List.lookup p.1 (complete_codemap a)) := by
  rcases List.mem_map.mp hp with ⟨k, hk, he⟩
  rw [← he]
  exact ⟨hk, rfl⟩

theorem applySubstitutions_perm (cm cm' : List (Char × Option (List Char)))
    (hperm : cm'.Perm cm)
    (hdet : ∀ p ∈ cm, ∀ q ∈ cm, p.1 = q.1 → p = q)
    (hcont : ∀ p ∈ cm, ∀ q ∈ cm, p.1 ∉ q.2.getD []) (s : List Char) :
    applySubstitutions s cm' = applySubstitutions s cm := by
  unfold applySubstitutions
  refine hperm.foldl_eq' ?_ s
  intro x hx y hy z
  have hxcm : x ∈ cm := hperm.mem_iff.mp hx
  have hycm : y ∈ cm := hperm.mem_iff.mp hy
  by_cases hxy : x = y
  · rw [hxy]
  · have hkey : x.1 ≠ y.1 := fun he => hxy (hdet x hxcm y hycm he)
    obtain ⟨c1, a1⟩ := x
    obtain ⟨c2, a2⟩ := y
    have hc12 : c1 ≠ c2 := hkey
    cases a1 with
    | none => rfl
    | some r1 =>
      cases a2 with
      | none => rfl
      | some r2 =>
        show (if r2.isEmpty then (if r1.isEmpty then z else replaceAll z c1 r1)
              else replaceAll (if r1.isEmpty then z else replaceAll z c1 r1) c2 r2)
            = (if r1.isEmpty then (if r2.isEmpty then z else replaceAll z c2 r2)
              else replaceAll (if r2.isEmpty then z else replaceAll z c2 r2) c1 r1)
        by_cases h1e : r1.isEmpty = true
        · simp [h1e]
        · by_cases h2e : r2.isEmpty = true
          · simp [h1e, h2e]
          · simp only [if_neg h1e, if_neg h2e]
            exact replaceAll_comm z c1 c2 r1 r2 hc12
              (hcont (c1, some r1) hxcm (c2, some r2) hycm)
              (hcont (c2, some r2) hycm (c1, some r1) hxcm)

theorem rstrip_seps_eq_nil {p : List Char} (h : ∀ c ∈ p, c = '/' ∨ c = '\\') :
    rstrip_seps p = [] := by
  unfold rstrip_seps
  rw [List.dropWhile_eq_nil_iff.mpr, List.reverse_nil]
  intro x hx
  rcases h x (List.mem_reverse.mp hx) with h1 | h1 <;> simp [h1]

/-- C5: for every input string, `ascii_equivalent` returns only characters
of `string.printable` (all of them ASCII), and applying it to its own output
returns that output unchanged (idempotence). -/
theorem C5_ascii_equivalent_printable_idem (s : List Char) :
    (∀ c, c ∈ ascii_equivalent s → pythonPrintable c = true ∧ c.toNat < 128)
    ∧ ascii_equivalent (ascii_equivalent s) = ascii_equivalent s :=
  ⟨fun _ hc => ⟨mem_ascii_equivalent_printable hc,
      pythonPrintable_lt_128 (mem_ascii_equivalent_printable hc)⟩,
    ascii_equivalent_idem s⟩

theorem C5_witness :
    (pythonPrintable 'c' = true ∧ 'c'.toNat < 128)
    ∧ ascii_equivalent (ascii_equivalent ("café".toList))
        = ascii_equivalent ("café".toList) :=
  ⟨(C5_ascii_equivalent_printable_idem ("café".toList)).1 'c' (by decide),
    (C5_ascii_equivalent_printable_idem ("café".toList)).2⟩

/-- C10: `propose_changes` on the one-character name consisting of the
combining acute accent — a non-empty name whose every character is dropped
by the transliteration pipeline — returns a proposal whose proposed name is
the empty string; nothing rejects the empty result. -/
theorem C10_propose_empty_name :
    propose_changes ['́'] none none = Except.ok (some (['́'], []))
    ∧ (['́'] : List Char) ≠ [] :=
  ⟨rfl, by decide⟩

/-- C1 (code bug): setting the colon replacement to the empty string does
not delete ':' — the guard `if replacement:` treats `""` exactly like
`None`, so occurrences are left untouched, contradicting the docstring's
"Set value to "" (empty string) to remove occurences"; with `None` the
occurrences are (correctly) left untouched as well. -/
theorem C1_empty_replacement_skipped :
    compatibility_substitution [':'] ("windows".toList) false argsEmptyColon
      = Except.ok [':']
    ∧ compatibility_substitution [':'] ("windows".toList) false argsNoneColon
      = Except.ok [':'] :=
  ⟨rfl, rfl⟩

/-- C2: for every input string and every string whose lowercasing is a valid
platform, substitution with the default replacements and `ascii_only=True`
succeeds and its result contains none of that platform's forbidden
characters. -/
theorem C2_no_forbidden_left (s ty ks : List Char)
    (h : forbidden_characters (lower ty) = some ks) :
    compatibility_substitution s ty true defaultArgs
      = Except.ok (defaultSubstitution s ty)
    ∧ ∀ f ∈ ks, f ∉ defaultSubstitution s ty :=
  ⟨compat_defaults_ok s ty ks h, defaultSubstitution_no_forbidden s ty ks h⟩

theorem C2_witness :
    compatibility_substitution (":a".toList) ("macos".toList) true defaultArgs
      = Except.ok (defaultSubstitution (":a".toList) ("macos".toList))
    ∧ ':' ∉ defaultSubstitution (":a".toList) ("macos".toList) :=
  ⟨(C2_no_forbidden_left (":a".toList) ("macos".toList) [':', '/'] rfl).1,
    (C2_no_forbidden_left (":a".toList) ("macos".toList) [':', '/'] rfl).2 ':'
      (by decide)⟩

/-- C4: for a valid (or absent) platform, `propose_changes` returns the
proposal of §4.3 — in particular it returns nothing exactly when the fully
transformed name equals the original name, and otherwise pairs the joined
original path with the joined transformed path. -/
theorem C4_propose_iff (s : List Char) (root : Option (List Char))
    (t : Option (List Char)) (hv : validOptType t = true) :
    propose_changes s root t = Except.ok (proposalFor s root t)
    ∧ (propose_changes s root t = Except.ok none ↔ finalName s t = s) := by
  have he := propose_changes_eq s root t hv
  refine ⟨he, ?_, ?_⟩
  · intro h
    rw [he] at h
    by_contra hne
    unfold proposalFor at h
    rw [if_neg hne] at h
    exact Option.noConfusion (Except.ok.inj h)
  · intro h
    rw [he]
    unfold proposalFor
    rw [if_pos h]

theorem C4_witness :
    propose_changes (":b".toList) (some ("d".toList)) (some ("windows".toList))
      = Except.ok (some ("d/:b".toList, "d/;b".toList))
    ∧ (propose_changes ("b".toList) (some ("d".toList)) (some ("windows".toList))
        = Except.ok none ↔ finalName ("b".toList) (some ("windows".toList)) = "b".toList) := by
  constructor
  · have h := (C4_propose_iff (":b".toList) (some ("d".toList))
      (some ("windows".toList)) (by decide)).1
    rw [h]
    rfl
  · exact (C4_propose_iff ("b".toList) (some ("d".toList))
      (some ("windows".toList)) (by decide)).2

/-- C8: the platform argument is matched after lowercasing, so any case
variant behaves like its lowercase form, and the invalid-type error (naming
the original argument) occurs exactly when the lowercasing is not one of the
three table keys. -/
theorem C8_case_insensitive (s ty : List Char) (ascii_only : Bool) (a : SubstArgs) :
    (validType ty = true →
      compatibility_substitution s ty ascii_only a
        = compatibility_substitution s (lower ty) ascii_only a)
    ∧ (compatibility_substitution s ty ascii_only a = Except.error (Err.invalidType ty)
        ↔ forbidden_characters (lower ty) = none) := by
  constructor
  · intro hvt
    obtain ⟨ks, hks⟩ := Option.isSome_iff_exists.mp hvt
    have hks2 : forbidden_characters (lower (lower ty)) = some ks := by
      rw [lower_idem]
      exact hks
    simp only [compatibility_substitution, hks, hks2]
  · constructor
    · intro heq
      by_contra hne
      obtain ⟨ks, hks⟩ := Option.ne_none_iff_exists'.mp hne
      simp only [compatibility_substitution, hks] at heq
      cases hval : validate (mkCodemap ks a) ks ascii_only with
      | ok u =>
        rw [hval] at heq
        exact Except.noConfusion heq
      | error e =>
        rw [hval] at heq
        injection heq with he
        rcases validate_error_shape _ _ _ _ hval with ⟨c, r, hce⟩ | ⟨c, r, hce⟩ <;>
          subst hce <;> exact Err.noConfusion he
    · intro h
      simp only [compatibility_substitution, h]

theorem C8_witness :
    compatibility_substitution (":a".toList) ("WinDows".toList) false defaultArgs
      = compatibility_substitution (":a".toList) (lower ("WinDows".toList)) false defaultArgs
    ∧ compatibility_substitution (":a".toList) ("bogus".toList) false defaultArgs
      = Except.error (Err.invalidType ("bogus".toList)) :=
  ⟨(C8_case_insensitive (":a".toList) ("WinDows".toList) false defaultArgs).1 (by decide),
    (C8_case_insensitive (":a".toList) ("bogus".toList) false defaultArgs).2.mpr
      (by decide)⟩

/-- C6 counterexample: `argsMasked` configures the double-quote replacement
as the forbidden ':' for windows, yet the function raises the non-ASCII
error (for the earlier colon entry), not the conflicting-replacement error;
the claim that `ConflictingReplacement` is raised fails here. -/
theorem C6_counterexample :
    argsMasked.double_quote = some [':']
    ∧ ':' ∈ (forbidden_characters (lower ("windows".toList))).getD []
    ∧ compatibility_substitution ['x'] ("windows".toList) true argsMasked
      = Except.error (Err.nonAscii ':' ['ä'])
    ∧ Err.nonAscii ':' ['ä'] ≠ Err.conflicting '\"' [':'] :=
  ⟨rfl, by decide, rfl, by decide⟩

/-- C6 amended: when some codemap entry's replacement equals one of the
platform's forbidden characters, `compatibility_substitution` never returns
a transformed result; with `ascii_only` false the error is always a
conflicting-replacement error (with `ascii_only` true an earlier entry may
fail the ASCII check first). -/
theorem C6_amended (s ty ks : List Char) (ascii_only : Bool) (a : SubstArgs)
    (h : forbidden_characters (lower ty) = some ks)
    (hconf : ∃ p ∈ mkCodemap ks a, ∃ k ∈ ks, p.2 = some [k]) :
    (compatibility_substitution s ty ascii_only a).isOk = false
    ∧ (ascii_only = false →
        ∃ c r, compatibility_substitution s ty ascii_only a
          = Except.error (Err.conflicting c r)) := by
  obtain ⟨⟨e, he⟩, hfalse⟩ := validate_conflict_error (mkCodemap ks a) ks ascii_only hconf
  constructor
  · simp only [compatibility_substitution, h, he]
    rfl
  · intro hao
    obtain ⟨c, r, hcr⟩ := hfalse hao
    exact ⟨c, r, by simp only [compatibility_substitution, h, hcr]⟩

theorem C6_amended_witness :
    (compatibility_substitution ['x'] ("windows".toList) false argsMasked).isOk
      = false :=
  (C6_amended ['x'] ("windows".toList)
    [':', '\"', '/', '\\', '<', '>', '|', '?', '*'] false argsMasked rfl
    (by decide)).1

/-- C3 counterexample: `argsContaining` passes the pre-substitution
validation for windows (the call succeeds), yet its double-quote replacement
"a:a" contains the forbidden ':', and applying the codemap with its first
two entries swapped yields a different result on the string made of one
double quote — so the result is not order-independent. -/
theorem C3_counterexample :
    compatibility_substitution ['\"'] ("windows".toList) true argsContaining
      = Except.ok ("a:a".toList)
    ∧ ':' ∈ ("a:a".toList : List Char)
    ∧ ':' ∈ (forbidden_characters (lower ("windows".toList))).getD []
    ∧ windowsCodemapSwapped.Perm windowsCodemapContaining
    ∧ applySubstitutions ['\"'] windowsCodemapSwapped
        ≠ applySubstitutions ['\"'] windowsCodemapContaining :=
  ⟨rfl, by decide, by decide, by decide, by decide⟩

/-- C3 amended: the validation only guarantees that no truthy replacement
equals a forbidden character as a whole string; when additionally no
replacement contains a forbidden character, the substitution result is
independent of the order of the codemap entries. -/
theorem C3_amended (ty ks : List Char) (a : SubstArgs) (ascii_only : Bool)
    (_hplat : forbidden_characters (lower ty) = some ks)
    (hpass : validate (mkCodemap ks a) ks ascii_only = Except.ok ()) :
    (∀ p ∈ mkCodemap ks a, ∀ k ∈ ks, p.2 ≠ some [k])
    ∧ ((∀ p ∈ mkCodemap ks a, ∀ k ∈ ks, k ∉ p.2.getD []) →
        ∀ cm', cm'.Perm (mkCodemap ks a) →
          ∀ s, applySubstitutions s cm' = applySubstitutions s (mkCodemap ks a)) := by
  refine ⟨validate_ok_not_key _ _ _ hpass, ?_⟩
  intro hcont cm' hperm s
  apply applySubstitutions_perm
  · exact hperm
  · intro p hp q hq hkey
    have h1 := mem_mkCodemap hp
    have h2 := mem_mkCodemap hq
    have h3 : p.2 = q.2 := by rw [h1.2, h2.2, hkey]
    exact Prod.ext hkey h3
  · intro p hp q hq
    exact hcont q hq p.1 (mem_mkCodemap hp).1

theorem C3_amended_witness :
    applySubstitutions [':'] windowsCodemapDefaults.reverse
      = applySubstitutions [':'] windowsCodemapDefaults :=
  (C3_amended ("windows".toList) [':', '\"', '/', '\\', '<', '>', '|', '?', '*']
      defaultArgs true rfl rfl).2 (by decide)
    windowsCodemapDefaults.reverse (List.reverse_perm _) [':']

/-- C7: when the (stripped) path exists and is a regular file, the scan
returns the filtered singleton proposal for the file's basename relative to
its parent and an empty directory list, whatever the `include_dirs` and
`recursive` flags are; the file list has at most one entry. -/
theorem C7_single_file_scan (fs : FS) (path : List Char) (t : Option (List Char))
    (include_dirs recursive : Bool) (hv : validOptType t = true)
    (hex : fs.path_exists (rstrip_seps path) = true)
    (hf : fs.isfile (rstrip_seps path) = true) :
    find_problem_filenames fs path t include_dirs recursive
      = Except.ok (filter_nonetypes
          [proposalFor (path_split (rstrip_seps path)).2
            (some (path_split (rstrip_seps path)).1) t], [])
    ∧ (filter_nonetypes
        [proposalFor (path_split (rstrip_seps path)).2
          (some (path_split (rstrip_seps path)).1) t]).length ≤ 1 := by
  constructor
  · have hp := propose_changes_eq (path_split (rstrip_seps path)).2
      (some (path_split (rstrip_seps path)).1) t hv
    simp only [find_problem_filenames, hex, hf, hp, Bool.not_true, Bool.false_eq_true,
      if_false, if_true]
    rfl
  · cases proposalFor (path_split (rstrip_seps path)).2
      (some (path_split (rstrip_seps path)).1) t <;>
      simp [filter_nonetypes]

theorem C7_witness :
    find_problem_filenames fsOneFile ("d/x".toList) none true true
      = Except.ok (filter_nonetypes
          [proposalFor (path_split (rstrip_seps ("d/x".toList))).2
            (some (path_split (rstrip_seps ("d/x".toList))).1) none], [])
    ∧ (filter_nonetypes
        [proposalFor (path_split (rstrip_seps ("d/x".toList))).2
          (some (path_split (rstrip_seps ("d/x".toList))).1) none]).length ≤ 1 :=
  C7_single_file_scan fsOneFile ("d/x".toList) none true true rfl rfl rfl

/-- C9: a path consisting solely of separator characters is stripped to the
empty string, and because the empty path never exists the scan fails with
the path-not-found error naming the empty string — even if the filesystem
root itself exists. -/
theorem C9_separator_path_not_found (fs : FS) (path : List Char)
    (t : Option (List Char)) (include_dirs recursive : Bool)
    (hall : ∀ c ∈ path, c = '/' ∨ c = '\\')
    (h0 : fs.path_exists [] = false) :
    rstrip_seps path = []
    ∧ find_problem_filenames fs path t include_dirs recursive
        = Except.error (Err.pathNotFound []) := by
  have hr := rstrip_seps_eq_nil hall
  refine ⟨hr, ?_⟩
  simp only [find_problem_filenames, hr, h0, Bool.not_false, if_true]

theorem C9_witness :
    (rstrip_seps ("/".toList) = []
     ∧ find_problem_filenames fsRootOnly ("/".toList) none true true
         = Except.error (Err.pathNotFound []))
    ∧ fsRootOnly.path_exists ['/'] = true :=
  ⟨C9_separator_path_not_found fsRootOnly ("/".toList) none true true
      (by decide) rfl, rfl⟩
